import Mathlib

/-!
# Shallow embedding of `llvm::PagedVector` (llvm/ADT/PagedVector.h)

A `PagedVector<T, PageSize>` keeps a declared logical size `Size` and a page
table `PageToDataPtrs` mapping each page index to either `InvalidPage`
(`nullptr`, modelled as `none`) or a pointer to a block of `PageSize`
default-constructed elements (modelled as the list of the page elements).
Pages are materialized lazily by `operator[]`; `resize` grows or shrinks the
page table; `clear` drops everything; `MaterialisedIterator` walks only the
materialized indices.

Machine integers (`size_t`) are modelled by `Nat`: sizes and indices in this
container never overflow in the scenarios the spec describes, and all
arithmetic in the source (`/`, `%`, `+`, comparisons) is on values far below
`2^64`, so plain `Nat` arithmetic is the faithful model.
-/

namespace PV

/-- State of an `llvm::PagedVector<α, P>`.

* `Size` is the field `size_t Size` (declared logical length).
* `PageToDataPtrs` is the field `SmallVector<T *, 0> PageToDataPtrs`:
  one entry per page, `none` standing for `InvalidPage` (`nullptr`) and
  `some pg` standing for a pointer to a materialized page whose contents
  are the list `pg` (length `P` in every reachable state).

The allocator binding (`PointerIntPair<BumpPtrAllocator *, 1, bool>`) holds
no observable element state: allocation and deallocation are modelled by
pages appearing in and disappearing from the page table. -/
structure PagedVector (α : Type) (P : Nat) where
  Size : Nat
  PageToDataPtrs : List (Option (List α))
deriving DecidableEq

variable {α : Type} [Inhabited α] {P : Nat}

/-- A freshly constructed `PagedVector`: `Size = 0`, empty page table. -/
def emptyPV : PagedVector α P := ⟨0, []⟩

/-- `capacity()`: `PageToDataPtrs.size() * PageSize`. -/
def capacity (v : PagedVector α P) : Nat := v.PageToDataPtrs.length * P

/-- `size()`. -/
def size (v : PagedVector α P) : Nat := v.Size

/-- `empty()`: `Size == 0`. -/
def isEmptyPV (v : PagedVector α P) : Prop := v.Size = 0

/-- The page-table slot for page index `I`, with out-of-range reads giving
the sentinel (out-of-range reads are precondition violations in the C++). -/
def slot (v : PagedVector α P) (I : Nat) : Option (List α) :=
  v.PageToDataPtrs.getD I none

/-- The state effect of `operator[](Index)`: if the slot for the page of `Index`
holds `InvalidPage`, allocate a page and default-construct all `PageSize`
elements (`std::uninitialized_value_construct_n(NewPagePtr, PageSize)`),
storing it in the slot; otherwise nothing changes. -/
def materializePage (v : PagedVector α P) (Index : Nat) : PagedVector α P :=
  match v.PageToDataPtrs.getD (Index / P) none with
  | none =>
      { v with PageToDataPtrs :=
          v.PageToDataPtrs.set (Index / P) (some (List.replicate P (default : α))) }
  | some _ => v

/-- Reading through the reference returned by `operator[](Index)`:
`PagePtr[Index % PageSize]` after materialization. -/
def elemRead (v : PagedVector α P) (Index : Nat) : α :=
  match (materializePage v Index).PageToDataPtrs.getD (Index / P) none with
  | some pg => pg.getD (Index % P) default
  | none => default

/-- Writing `x` through the reference returned by `operator[](Index)`:
materialize the page, then store at offset `Index % PageSize`. -/
def elemWrite (v : PagedVector α P) (Index : Nat) (x : α) : PagedVector α P :=
  let v1 := materializePage v Index
  match v1.PageToDataPtrs.getD (Index / P) none with
  | some pg =>
      { v1 with PageToDataPtrs :=
          v1.PageToDataPtrs.set (Index / P) (some (pg.set (Index % P) x)) }
  | none => v1

/-- `clear()`: sets `Size = 0`, destroys every materialized page (returning
it to the allocator or resetting the owned allocator), and empties the page
table. The observable state is exactly a fresh container. -/
def clear (_v : PagedVector α P) : PagedVector α P := ⟨0, []⟩

/-- The pages `clear()` destructs: every non-sentinel page in the table. -/
def clearDestroyed (v : PagedVector α P) : List (List α) :=
  v.PageToDataPtrs.filterMap id

/-- The shrink loop of `resize`:
`for (size_t I = NewLastPage + 1, N = PageToDataPtrs.size(); I < N; ++I)`,
given here the list of loop indices `[NewLastPage+1, ..., N-1]`. A slot that
holds `InvalidPage` is skipped (`continue`); otherwise its page is
destructed and deallocated and the slot reset to `InvalidPage`. Returns the
updated table together with the indices of the pages that were destroyed,
in loop order. -/
def shrinkPages (table : List (Option (List α))) : List Nat → List (Option (List α)) × List Nat
  | [] => (table, [])
  | I :: rest =>
      match table.getD I none with
      | none => shrinkPages table rest
      | some _ =>
          let r := shrinkPages (table.set I none) rest
          (r.1, I :: r.2)

/-- `SmallVector::resize(N)` / `resize(N, NV)` on the page table: truncate
when shrinking, append `fill` copies when growing. -/
def listResize (l : List (Option (List α))) (n : Nat) (fill : Option (List α)) :
    List (Option (List α)) :=
  if n ≤ l.length then l.take n else l ++ List.replicate (n - l.length) fill

/-- The loop-index list for the shrink loop of `resize`. -/
def shrinkRange (len start : Nat) : List Nat := List.range' start (len - start)

/-- `resize(NewSize)`:
* `NewSize == 0`: `clear()`.
* `NewSize < Size`: run the shrink loop beyond `NewLastPage = (NewSize-1)/PageSize`,
  then `PageToDataPtrs.resize(NewLastPage + 1)`.
* set `Size = NewSize`; if `Size <= capacity()` stop; otherwise grow the page
  table to `Size / PageSize` pages plus one more when `Size % PageSize != 0`,
  filling new slots with `InvalidPage`. -/
def resize (v : PagedVector α P) (NewSize : Nat) : PagedVector α P :=
  if NewSize = 0 then clear v
  else
    let v1 : PagedVector α P :=
      if NewSize < v.Size then
        let NewLastPage := (NewSize - 1) / P
        let shrunk := shrinkPages v.PageToDataPtrs
          (shrinkRange v.PageToDataPtrs.length (NewLastPage + 1))
        { v with PageToDataPtrs := listResize shrunk.1 (NewLastPage + 1) none }
      else v
    let v2 : PagedVector α P := { v1 with Size := NewSize }
    if NewSize ≤ capacity v2 then v2
    else
      let Pages := NewSize / P + (if NewSize % P ≠ 0 then 1 else 0)
      { v2 with PageToDataPtrs := listResize v2.PageToDataPtrs Pages none }

/-- The page indices `resize(NewSize)` destructs and deallocates: those freed
by the shrink loop when `NewSize < Size`, every materialized page when
`NewSize == 0` (via `clear`), and none on growth. -/
def resizeDestroyed (v : PagedVector α P) (NewSize : Nat) : List Nat :=
  if NewSize = 0 then
    (List.range v.PageToDataPtrs.length).filter fun I =>
      (v.PageToDataPtrs.getD I none).isSome
  else if NewSize < v.Size then
    (shrinkPages v.PageToDataPtrs
      (shrinkRange v.PageToDataPtrs.length ((NewSize - 1) / P + 1))).2
  else []

/-- The scan loop of `materialised_begin()`:
`for (size_t ElementIdx = 0; ElementIdx < Size; ElementIdx += PageSize)`
returning the first `ElementIdx` whose page-table slot is valid, else `Size`.
`fuel` bounds the number of loop iterations; `v.Size + 1` is always enough
(each iteration requires `ElementIdx < Size` and advances by `PageSize ≥ 1`). -/
def findFirstMat (v : PagedVector α P) : Nat → Nat → Nat
  | 0, _ => v.Size
  | fuel + 1, ElementIdx =>
      if ElementIdx < v.Size then
        if (v.PageToDataPtrs.getD (ElementIdx / P) none).isSome then ElementIdx
        else findFirstMat v fuel (ElementIdx + P)
      else v.Size

/-- `materialised_begin()`: index of the first element of the first
materialized page, or `Size` when there is none. -/
def materialisedBeginIdx (v : PagedVector α P) : Nat :=
  findFirstMat v (v.Size + 1) 0

/-- `materialised_end()`: index `Size`. -/
def materialisedEndIdx (v : PagedVector α P) : Nat := v.Size

/-- The skip loop of `MaterialisedIterator::operator++`:
`while (ElementIdx < PV->Size && PageToDataPtrs[ElementIdx / PageSize] == InvalidPage)
   ElementIdx += PageSize;`
with `fuel` bounding iterations (`v.Size + 1` always suffices). -/
def skipUnmat (v : PagedVector α P) : Nat → Nat → Nat
  | 0, ElementIdx => ElementIdx
  | fuel + 1, ElementIdx =>
      if ElementIdx < v.Size ∧ ¬(v.PageToDataPtrs.getD (ElementIdx / P) none).isSome then
        skipUnmat v fuel (ElementIdx + P)
      else ElementIdx

/-- `MaterialisedIterator::operator++` on the stored index:
increment; if that lands exactly on a page boundary, skip whole
unmaterialized pages, then clamp to `Size` when the skip overshot. -/
def iterNext (v : PagedVector α P) (ElementIdx : Nat) : Nat :=
  let e1 := ElementIdx + 1
  if e1 % P = 0 then
    let e2 := skipUnmat v (v.Size + 1) e1
    if e2 > v.Size then v.Size else e2
  else e1

/-- `std::distance(materialisedBegin, materialisedEnd)`-style counting:
apply `operator++` until the index equals `Size` (the `end` index), counting
steps. `fuel` bounds iterations; from any position reachable in iteration
`v.Size + 1` suffices since each step strictly increases the index while it
is below `Size` and never moves it past `Size`. -/
def countFrom (v : PagedVector α P) : Nat → Nat → Nat
  | 0, _ => 0
  | fuel + 1, ElementIdx =>
      if ElementIdx ≠ v.Size then countFrom v fuel (iterNext v ElementIdx) + 1
      else 0

/-- Number of elements visited by iterating from `materialised_begin()` to
`materialised_end()`. -/
def materialisedDistance (v : PagedVector α P) : Nat :=
  countFrom v (v.Size + 1) (materialisedBeginIdx v)

/-- Number of in-range indices whose page is materialized (the set the
materialized range is supposed to visit). -/
def matIndexCount (v : PagedVector α P) : Nat :=
  (List.range v.Size).countP fun i => (v.PageToDataPtrs.getD (i / P) none).isSome

/-- Number of constructed (materialized) elements: materialized pages times
the page size. Materialization always constructs whole pages, so this counts
elements even beyond `Size` in a partially-used final page. -/
def matElemCount (v : PagedVector α P) : Nat :=
  (v.PageToDataPtrs.countP Option.isSome) * P

/-- A page-table slot is either the sentinel or a fully-constructed page of
exactly `PageSize` elements. -/
def pageOk (P : Nat) : Option (List α) → Prop
  | none => True
  | some pg => pg.length = P

instance (P : Nat) (s : Option (List α)) : Decidable (pageOk P s) := by
  cases s <;> simp [pageOk] <;> infer_instance

/-- Well-formedness of a container state: the declared size fits the page
table (`capacity >= Size`) and every materialized page holds exactly
`PageSize` elements. Every reachable state satisfies this. -/
def WF (v : PagedVector α P) : Prop :=
  v.Size ≤ capacity v ∧ ∀ s ∈ v.PageToDataPtrs, pageOk P s

instance (v : PagedVector α P) [DecidableEq α] : Decidable (WF v) := by
  unfold WF; infer_instance

/-- The public mutating operations of the container, for trace-based
statements. `read i` is `operator[](i)` used as an rvalue (it still
materializes the page); `write i x` is assignment through `operator[](i)`. -/
inductive Op (α : Type) where
  | read (i : Nat)
  | write (i : Nat) (x : α)
  | resizeOp (n : Nat)
  | clearOp
deriving DecidableEq

/-- Apply one operation to the container state. -/
def applyOp (v : PagedVector α P) : Op α → PagedVector α P
  | .read i => materializePage v i
  | .write i x => elemWrite v i x
  | .resizeOp n => resize v n
  | .clearOp => clear v

/-- Apply a sequence of operations, oldest first. -/
def applyOps (v : PagedVector α P) (ops : List (Op α)) : PagedVector α P :=
  ops.foldl applyOp v

/-- Container states reachable from a freshly constructed container by the
public operations. -/
inductive Reach : PagedVector α P → Prop where
  | fresh : Reach emptyPV
  | step : ∀ {v : PagedVector α P} (op : Op α), Reach v → Reach (applyOp v op)

/-- Start index of the page containing index `i`. -/
def pageStart (P i : Nat) : Nat := (i / P) * P

/-- An operation spares index `i`: it is not an assignment to `i`, and if it
is a resize it does not shrink to a size at or below the start of the page
of `i` (so the page of `i` is never destroyed). -/
def sparesIdx (i P : Nat) : Op α → Prop
  | .read _ => True
  | .write j _ => j ≠ i
  | .resizeOp n => pageStart P i < n
  | .clearOp => False

/-- An operation is an assignment to index `i`. -/
def writesTo (i : Nat) : Op α → Prop
  | .write j _ => j = i
  | _ => False

/-- The page of index `i` is materialized and stores `x` at the offset of
`i`: the invariant propagated by a write to `i`. -/
def holdsAt (v : PagedVector α P) (i : Nat) (x : α) : Prop :=
  ∃ pg, v.PageToDataPtrs.getD (i / P) none = some pg ∧ pg.getD (i % P) default = x

/-- The page of index `i` is unmaterialized, or it stores the
default-constructed value at the offset of `i`: the invariant propagated
for a never-written index. -/
def defaultAt (v : PagedVector α P) (i : Nat) : Prop :=
  v.PageToDataPtrs.getD (i / P) none = none ∨
  ∃ pg, v.PageToDataPtrs.getD (i / P) none = some pg ∧ pg.getD (i % P) default = default

/-- An iterator index is a legal stopping point: exactly `Size` (the end
position) or an in-range index inside a materialized page. -/
def iterStops (v : PagedVector α P) (e : Nat) : Prop :=
  e = v.Size ∨ (e < v.Size ∧ (v.PageToDataPtrs.getD (e / P) none).isSome)

/-- Iterator indices reachable from `materialised_begin()` or
`materialised_end()` by applying `operator++` any number of times,
with no restriction on where `operator++` is applied (the literal
reading of the claim). -/
inductive IterReach (v : PagedVector α P) : Nat → Prop where
  | beginPos : IterReach v (materialisedBeginIdx v)
  | endPos : IterReach v v.Size
  | next : ∀ {e : Nat}, IterReach v e → IterReach v (iterNext v e)

/-- Iterator indices reachable from `materialised_begin()` or
`materialised_end()` by applying `operator++` only at non-end positions
(the iterator usage contract). -/
inductive IterReachStop (v : PagedVector α P) : Nat → Prop where
  | beginPos : IterReachStop v (materialisedBeginIdx v)
  | endPos : IterReachStop v v.Size
  | next : ∀ {e : Nat}, IterReachStop v e → e ≠ v.Size → IterReachStop v (iterNext v e)

/-- Number of in-range materialized indices at or beyond index `e`. -/
def matIndexCountFrom (v : PagedVector α P) (e : Nat) : Nat :=
  (List.range' e (v.Size - e)).countP fun i => (v.PageToDataPtrs.getD (i / P) none).isSome

/-- `PagedVector<int, 10>` instantiated at `Nat` elements, as in the unit
tests. -/
abbrev V10 := PagedVector Nat 10

/-- Write the value `i` at index `i` for every `i` in the list, in order. -/
def writeAll (v : V10) (l : List Nat) : V10 :=
  l.foldl (fun v i => elemWrite v i i) v

/-- Scenario state: `resize(30)` then write indices 0..9 and 20..29. -/
def vScenario30 : V10 := writeAll (resize emptyPV 30) (List.range 10 ++ List.range' 20 10)

/-- Scenario state: the previous state after `resize(35)`. -/
def vScenario35 : V10 := resize vScenario30 35

/-- Scenario state: the previous state after writing indices 30..34. -/
def vScenario35w : V10 := writeAll vScenario35 (List.range' 30 5)

/-- A size-5, page-size-10 container with no materialized page: the state
refuting the literal iterator-reachability claim. -/
def vHalfPage : V10 := resize emptyPV 5

/-- A reachable concrete state used to instantiate theorems with
hypotheses: `resize(12)` then write 5 at index 3. -/
def vSample : V10 := applyOp (applyOp emptyPV (Op.resizeOp 12)) (Op.write 3 5)

/-- A fully materialized four-page container: `resize(40)` then write every
index, as in the shrink scenario of the spec. -/
def vFull40 : V10 := writeAll (resize emptyPV 40) (List.range 40)

instance (i P : Nat) (op : Op α) : Decidable (sparesIdx i P op) := by
  cases op <;> simp only [sparesIdx] <;> infer_instance

instance (i : Nat) (op : Op α) : Decidable (writesTo i op) := by
  cases op <;> simp only [writesTo] <;> infer_instance

instance (v : PagedVector α P) (e : Nat) : Decidable (iterStops v e) := by
  unfold iterStops
  infer_instance

set_option maxRecDepth 100000

/-! ## List helper lemmas -/

theorem getD_set_ne {β : Type} (l : List β) {i j : Nat} (a d : β) (h : i ≠ j) :
    (l.set i a).getD j d = l.getD j d := by
  simp [List.getD_eq_getElem?_getD, List.getElem?_set_ne h]

theorem getD_set_self {β : Type} (l : List β) {i : Nat} (a d : β) (h : i < l.length) :
    (l.set i a).getD i d = a := by
  simp [List.getD_eq_getElem?_getD, List.getElem?_set_self h]

theorem getD_of_ge_length {β : Type} (l : List β) {i : Nat} (d : β) (h : l.length ≤ i) :
    l.getD i d = d := by
  simp [List.getD_eq_getElem?_getD, List.getElem?_eq_none h]

theorem getD_append_left {β : Type} (l₁ l₂ : List β) {i : Nat} (d : β) (h : i < l₁.length) :
    (l₁ ++ l₂).getD i d = l₁.getD i d := by
  simp [List.getD_eq_getElem?_getD, List.getElem?_append_left h]

theorem getD_take_lt {β : Type} (l : List β) {n i : Nat} (d : β) (h : i < n) :
    (l.take n).getD i d = l.getD i d := by
  simp [List.getD_eq_getElem?_getD, List.getElem?_take_of_lt h]

theorem getD_replicate_self {β : Type} {n i : Nat} (a : β) :
    (List.replicate n a).getD i a = a := by
  rcases Nat.lt_or_ge i n with h | h
  · simp [List.getD_eq_getElem?_getD, List.getElem?_replicate_of_lt h]
  · exact getD_of_ge_length _ _ (by simpa using h)

theorem getElem?_eq_some_getD {β : Type} (l : List β) {j : Nat} (d : β) (h : j < l.length) :
    l[j]? = some (l.getD j d) := by
  simp [List.getD_eq_getElem?_getD, List.getElem?_eq_getElem h]

theorem lt_div_succ_mul (a b : Nat) (hb : 0 < b) : a < (a / b + 1) * b := by
  rw [Nat.add_mul, Nat.one_mul, Nat.mul_comm]
  have h1 := Nat.div_add_mod a b
  have h2 : a % b < b := Nat.mod_lt a hb
  omega

theorem getD_some_lt_length {β : Type} {l : List (Option β)} {i : Nat} {pg : β}
    (h : l.getD i none = some pg) : i < l.length := by
  by_contra hge
  rw [getD_of_ge_length l none (Nat.le_of_not_lt hge)] at h
  exact Option.noConfusion h

theorem getD_isSome_lt_length {β : Type} {l : List (Option β)} {i : Nat}
    (h : (l.getD i none).isSome) : i < l.length := by
  rcases Option.isSome_iff_exists.mp h with ⟨pg, hpg⟩
  exact getD_some_lt_length hpg

/-! ## Basic operation lemmas -/

theorem materializePage_Size (v : PagedVector α P) (i : Nat) :
    (materializePage v i).Size = v.Size := by
  unfold materializePage
  cases v.PageToDataPtrs.getD (i / P) none <;> rfl

theorem materializePage_length (v : PagedVector α P) (i : Nat) :
    (materializePage v i).PageToDataPtrs.length = v.PageToDataPtrs.length := by
  unfold materializePage
  cases v.PageToDataPtrs.getD (i / P) none <;> simp

theorem materializePage_slot_ne (v : PagedVector α P) (i : Nat) {q : Nat} (h : q ≠ i / P) :
    (materializePage v i).PageToDataPtrs.getD q none = v.PageToDataPtrs.getD q none := by
  unfold materializePage
  cases v.PageToDataPtrs.getD (i / P) none with
  | none => exact getD_set_ne _ _ _ (Ne.symm h)
  | some pg => rfl

theorem materializePage_of_some (v : PagedVector α P) (i : Nat) {pg : List α}
    (h : v.PageToDataPtrs.getD (i / P) none = some pg) :
    materializePage v i = v := by
  unfold materializePage
  rw [h]

theorem materializePage_of_none (v : PagedVector α P) (i : Nat)
    (h : v.PageToDataPtrs.getD (i / P) none = none) (hlen : i / P < v.PageToDataPtrs.length) :
    (materializePage v i).PageToDataPtrs.getD (i / P) none
      = some (List.replicate P (default : α)) := by
  unfold materializePage
  rw [h]
  exact getD_set_self _ _ _ hlen

theorem elemWrite_Size (v : PagedVector α P) (i : Nat) (x : α) :
    (elemWrite v i x).Size = v.Size := by
  simp only [elemWrite]
  split
  · exact materializePage_Size v i
  · exact materializePage_Size v i

theorem elemWrite_length (v : PagedVector α P) (i : Nat) (x : α) :
    (elemWrite v i x).PageToDataPtrs.length = v.PageToDataPtrs.length := by
  simp only [elemWrite]
  split
  · simpa using materializePage_length v i
  · exact materializePage_length v i

theorem elemWrite_slot_ne (v : PagedVector α P) (i : Nat) (x : α) {q : Nat} (h : q ≠ i / P) :
    (elemWrite v i x).PageToDataPtrs.getD q none = v.PageToDataPtrs.getD q none := by
  simp only [elemWrite]
  split
  · show ((materializePage v i).PageToDataPtrs.set (i / P) _).getD q none = _
    rw [getD_set_ne _ _ _ (Ne.symm h)]
    exact materializePage_slot_ne v i h
  · exact materializePage_slot_ne v i h

/-! ## shrinkPages and listResize lemmas -/

theorem listResize_length (l : List (Option (List α))) (n : Nat) (fill : Option (List α)) :
    (listResize l n fill).length = n := by
  simp only [listResize]
  split
  · next h => simp [Nat.min_eq_left h]
  · next h => simp; omega

theorem shrinkPages_fst_length (table : List (Option (List α))) (idxs : List Nat) :
    (shrinkPages table idxs).1.length = table.length := by
  induction idxs generalizing table with
  | nil => rfl
  | cons I rest ih =>
      simp only [shrinkPages]
      split

      · exact ih table
      · simp [ih]

theorem shrinkPages_fst_mem (table : List (Option (List α))) (idxs : List Nat)
    {s : Option (List α)} (hs : s ∈ (shrinkPages table idxs).1) : s ∈ table ∨ s = none := by
  induction idxs generalizing table with
  | nil => exact Or.inl hs
  | cons I rest ih =>
      simp only [shrinkPages] at hs
      split at hs
      · exact ih table hs
      · simp only at hs
        rcases ih (table.set I none) hs with h | h
        · rcases List.mem_or_eq_of_mem_set h with h' | h'
          · exact Or.inl h'
          · exact Or.inr h'
        · exact Or.inr h

theorem shrinkPages_fst_getD_not_mem (table : List (Option (List α))) (idxs : List Nat)
    {j : Nat} (hj : j ∉ idxs) :
    (shrinkPages table idxs).1.getD j none = table.getD j none := by
  induction idxs generalizing table with
  | nil => rfl
  | cons I rest ih =>
      have hjI : j ≠ I := fun h => hj (h ▸ List.mem_cons_self I rest)
      have hjr : j ∉ rest := fun h => hj (List.mem_cons_of_mem I h)
      simp only [shrinkPages]
      split
      · exact ih table hjr
      · simp only
        rw [ih (table.set I none) hjr, getD_set_ne _ _ _ (Ne.symm hjI)]

theorem shrinkPages_fst_getD_mem (table : List (Option (List α))) (idxs : List Nat)
    (hnd : idxs.Nodup) {j : Nat} (hj : j ∈ idxs) :
    (shrinkPages table idxs).1.getD j none = none := by
  induction idxs generalizing table with
  | nil => simp at hj
  | cons I rest ih =>
      have hnd' : rest.Nodup := (List.nodup_cons.mp hnd).2
      have hInr : I ∉ rest := (List.nodup_cons.mp hnd).1
      simp only [shrinkPages]
      rcases List.mem_cons.mp hj with hjI | hjr
      · subst hjI
        split
        · next hnone =>
            rw [shrinkPages_fst_getD_not_mem table rest hInr]
            exact hnone
        · next pg hpg =>
            simp only
            rw [shrinkPages_fst_getD_not_mem _ rest hInr]
            rcases Nat.lt_or_ge j table.length with hlt | hge
            · exact getD_set_self _ _ _ hlt
            · exact getD_of_ge_length _ _ (by simpa using hge)
      · split
        · exact ih table hnd' hjr
        · exact ih (table.set _ none) hnd' hjr

theorem shrinkPages_snd (table : List (Option (List α))) (idxs : List Nat)
    (hnd : idxs.Nodup) :
    (shrinkPages table idxs).2 = idxs.filter fun I => (table.getD I none).isSome := by
  induction idxs generalizing table with
  | nil => rfl
  | cons I rest ih =>
      have hnd' : rest.Nodup := (List.nodup_cons.mp hnd).2
      have hInr : I ∉ rest := (List.nodup_cons.mp hnd).1
      simp only [shrinkPages]
      split
      · next hnone =>
          rw [ih table hnd', List.filter_cons, if_neg (by rw [hnone]; simp)]
      · next pg hpg =>
          simp only
          rw [ih (table.set I none) hnd', List.filter_cons, if_pos (by rw [hpg]; simp)]
          congr 1
          apply List.filter_congr
          intro J hJ
          have : J ≠ I := fun h => hInr (h ▸ hJ)
          rw [getD_set_ne _ _ _ (Ne.symm this)]

/-! ## Well-formedness -/

theorem WF_emptyPV : WF (emptyPV : PagedVector α P) := by
  constructor
  · simp [emptyPV, capacity]
  · intro s hs; simp [emptyPV] at hs

theorem WF_slot_length {v : PagedVector α P} (hwf : WF v) {q : Nat} {pg : List α}
    (h : v.PageToDataPtrs.getD q none = some pg) : pg.length = P := by
  have hq : q < v.PageToDataPtrs.length := getD_some_lt_length h
  have h2 : v.PageToDataPtrs[q]? = some (some pg) := by
    rw [getElem?_eq_some_getD _ none hq, h]
  exact hwf.2 _ (List.getElem?_mem h2)

theorem slot_lt_length {v : PagedVector α P} (hP : 0 < P) (hwf : WF v) {i : Nat}
    (hi : i < v.Size) : i / P < v.PageToDataPtrs.length :=
  (Nat.div_lt_iff_lt_mul hP).mpr (Nat.lt_of_lt_of_le hi hwf.1)

theorem WF_materializePage {v : PagedVector α P} (hwf : WF v) (i : Nat) :
    WF (materializePage v i) := by
  constructor
  · rw [materializePage_Size, capacity, materializePage_length]; exact hwf.1
  · intro s hs
    unfold materializePage at hs
    cases hslot : v.PageToDataPtrs.getD (i / P) none with
    | some pg => rw [hslot] at hs; exact hwf.2 s hs
    | none =>
        rw [hslot] at hs
        simp only at hs
        rcases List.mem_or_eq_of_mem_set hs with h | h
        · exact hwf.2 s h
        · subst h; simp [pageOk]

theorem WF_elemWrite {v : PagedVector α P} (hwf : WF v) (i : Nat) (x : α) :
    WF (elemWrite v i x) := by
  have hwf1 : WF (materializePage v i) := WF_materializePage hwf i
  constructor
  · rw [elemWrite_Size, capacity, elemWrite_length]; exact hwf.1
  · intro s hs
    simp only [elemWrite] at hs
    split at hs
    · next pg hpg =>
        simp only at hs
        rcases List.mem_or_eq_of_mem_set hs with h | h
        · exact hwf1.2 s h
        · subst h
          have : pg.length = P := WF_slot_length hwf1 hpg
          simp [pageOk, this]
    · exact hwf1.2 s hs

theorem WF_clear (v : PagedVector α P) : WF (clear v : PagedVector α P) := WF_emptyPV

/-! ## Resize characterization -/

theorem resize_Size (v : PagedVector α P) (n : Nat) : (resize v n).Size = n := by
  simp only [resize]
  split_ifs <;> simp_all [clear]

theorem numPages_mul_ge (hP : 0 < P) (n : Nat) :
    n ≤ (n / P + (if n % P ≠ 0 then 1 else 0)) * P := by
  rcases eq_or_ne (n % P) 0 with h | h
  · simp only [h, ne_eq, not_true_eq_false, if_false, Nat.add_zero]
    conv_lhs => rw [← Nat.div_add_mod n P]
    simp [h, Nat.mul_comm]
  · simp only [ne_eq, h, not_false_eq_true, if_true]
    conv_lhs => rw [← Nat.div_add_mod n P]
    rw [Nat.add_mul, Nat.one_mul, Nat.mul_comm]
    exact Nat.add_le_add_left (Nat.le_of_lt (Nat.mod_lt n hP)) _

theorem numPages_eq_ceil (hP : 0 < P) (n : Nat) :
    n / P + (if n % P ≠ 0 then 1 else 0) = (n + P - 1) / P := by
  have hd := Nat.div_add_mod n P
  have hm : n % P < P := Nat.mod_lt n hP
  rcases eq_or_ne (n % P) 0 with h | h
  · simp only [h, ne_eq, not_true_eq_false, if_false]
    have h1 : n + P - 1 = P * (n / P) + (P - 1) := by omega
    have h2 : (P - 1) / P = 0 := Nat.div_eq_of_lt (by omega)
    rw [h1, Nat.mul_add_div hP, h2]
  · simp only [ne_eq, h, not_false_eq_true, if_true]
    have hx : P * (n / P + 1) = P * (n / P) + P := by ring
    have h1 : n + P - 1 = P * (n / P + 1) + (n % P - 1) := by omega
    have h2 : (n % P - 1) / P = 0 := Nat.div_eq_of_lt (by omega)
    rw [h1, Nat.mul_add_div hP, h2]

theorem resize_shrink_eq (v : PagedVector α P) (n : Nat) (hP : 0 < P) (h0 : n ≠ 0)
    (hlt : n < v.Size) :
    resize v n =
      ⟨n, listResize (shrinkPages v.PageToDataPtrs
            (shrinkRange v.PageToDataPtrs.length ((n - 1) / P + 1))).1
          ((n - 1) / P + 1) none⟩ := by
  simp only [resize, h0, if_false, hlt, if_true]
  rw [if_pos]
  show n ≤ capacity (⟨n, _⟩ : PagedVector α P)
  rw [capacity, listResize_length]
  have h1 : n - 1 < ((n - 1) / P + 1) * P := lt_div_succ_mul (n - 1) P hP
  omega

theorem resize_shrink_table (v : PagedVector α P) (n : Nat) (hP : 0 < P) (hwf : WF v)
    (h0 : n ≠ 0) (hlt : n < v.Size) :
    resize v n = ⟨n, v.PageToDataPtrs.take ((n - 1) / P + 1)⟩ := by
  rw [resize_shrink_eq v n hP h0 hlt]
  have hL : (n - 1) / P + 1 ≤ v.PageToDataPtrs.length := by
    have h1 : n - 1 < v.Size := by omega
    have h2 : n - 1 < v.PageToDataPtrs.length * P := Nat.lt_of_lt_of_le h1 hwf.1
    have := (Nat.div_lt_iff_lt_mul hP).mpr h2
    omega
  have hlen : (shrinkPages v.PageToDataPtrs
      (shrinkRange v.PageToDataPtrs.length ((n - 1) / P + 1))).1.length
      = v.PageToDataPtrs.length := shrinkPages_fst_length _ _
  congr 1
  rw [listResize, if_pos (by omega)]
  apply List.ext_getElem?
  intro j
  rcases Nat.lt_or_ge j ((n - 1) / P + 1) with hj | hj
  · rw [List.getElem?_take_of_lt hj, List.getElem?_take_of_lt hj]
    have hjlen : j < v.PageToDataPtrs.length := by omega
    have hnm : j ∉ shrinkRange v.PageToDataPtrs.length ((n - 1) / P + 1) := by
      intro hmem
      rw [shrinkRange, List.mem_range'] at hmem
      omega
    have := shrinkPages_fst_getD_not_mem v.PageToDataPtrs
      (shrinkRange v.PageToDataPtrs.length ((n - 1) / P + 1)) hnm
    rw [getElem?_eq_some_getD _ none (by omega), getElem?_eq_some_getD _ none hjlen, this]
  · rw [List.getElem?_eq_none (by simp; omega), List.getElem?_eq_none (by simp; omega)]

theorem resize_grow (v : PagedVector α P) (n : Nat) (hn : n ≠ 0) (hge : v.Size ≤ n) :
    resize v n =
      if n ≤ capacity v then { v with Size := n }
      else ⟨n, listResize v.PageToDataPtrs
            (n / P + (if n % P ≠ 0 then 1 else 0)) none⟩ := by
  simp only [resize, hn, if_false]
  have hlt : ¬ n < v.Size := Nat.not_lt.mpr hge
  simp only [hlt, if_false]
  have : capacity { v with Size := n } = capacity v := rfl
  rw [this]

theorem numPages_gt_length {v : PagedVector α P} (hP : 0 < P) {n : Nat}
    (hcap : capacity v < n) :
    v.PageToDataPtrs.length < n / P + (if n % P ≠ 0 then 1 else 0) := by
  have h1 : v.PageToDataPtrs.length * P < n := hcap
  rcases eq_or_ne (n % P) 0 with h | h
  · simp only [h, ne_eq, not_true_eq_false, if_false, Nat.add_zero]
    by_contra hc
    push_neg at hc
    have hd := Nat.div_add_mod n P
    have h3 : n ≤ v.PageToDataPtrs.length * P := by
      have := Nat.mul_le_mul_left P hc
      have hcomm : v.PageToDataPtrs.length * P = P * v.PageToDataPtrs.length :=
        Nat.mul_comm _ _
      omega
    omega
  · simp only [ne_eq, h, not_false_eq_true, if_true]
    have h2 : v.PageToDataPtrs.length ≤ n / P :=
      (Nat.le_div_iff_mul_le hP).mpr (Nat.le_of_lt h1)
    omega

theorem WF_resize {v : PagedVector α P} (hP : 0 < P) (hwf : WF v) (n : Nat) :
    WF (resize v n) := by
  rcases eq_or_ne n 0 with h0 | h0
  · subst h0
    have : resize v 0 = (emptyPV : PagedVector α P) := by simp [resize, clear, emptyPV]
    rw [this]; exact WF_emptyPV
  rcases Nat.lt_or_ge n v.Size with hlt | hge
  · rw [resize_shrink_table v n hP hwf h0 hlt]
    constructor
    · show n ≤ (v.PageToDataPtrs.take ((n - 1) / P + 1)).length * P
      have hL : (n - 1) / P + 1 ≤ v.PageToDataPtrs.length := by
        have h1 : n - 1 < v.Size := by omega
        have h2 : n - 1 < v.PageToDataPtrs.length * P := Nat.lt_of_lt_of_le h1 hwf.1
        have := (Nat.div_lt_iff_lt_mul hP).mpr h2
        omega
      rw [List.length_take_of_le hL]
      have h1 : n - 1 < ((n - 1) / P + 1) * P := lt_div_succ_mul (n - 1) P hP
      omega
    · intro s hs
      exact hwf.2 s (List.mem_of_mem_take hs)
  · rw [resize_grow v n h0 hge]
    split
    · next hcap =>
        exact ⟨hcap, hwf.2⟩
    · next hcap =>
        have hcap' : capacity v < n := Nat.lt_of_not_le hcap
        have hlen_lt := numPages_gt_length hP hcap'
        constructor
        · show n ≤ (listResize v.PageToDataPtrs _ none).length * P
          rw [listResize, if_neg (by omega), List.length_append, List.length_replicate]
          have : v.PageToDataPtrs.length + (n / P + (if n % P ≠ 0 then 1 else 0)
              - v.PageToDataPtrs.length) = n / P + (if n % P ≠ 0 then 1 else 0) := by omega
          rw [this]
          exact numPages_mul_ge hP n
        · intro s hs
          simp only [listResize] at hs
          split at hs
          all_goals split at hs
          all_goals
            first
              | exact hwf.2 s (List.mem_of_mem_take hs)
              | (rcases List.mem_append.mp hs with h | h
                 · exact hwf.2 s h
                 · rw [List.eq_of_mem_replicate h]; simp [pageOk])

/-! ## Operation traces and the write-then-read invariant -/

theorem WF_applyOp {v : PagedVector α P} (hP : 0 < P) (hwf : WF v) (op : Op α) :
    WF (applyOp v op) := by
  cases op with
  | read i => exact WF_materializePage hwf i
  | write i x => exact WF_elemWrite hwf i x
  | resizeOp n => exact WF_resize hP hwf n
  | clearOp => exact WF_clear v

theorem WF_applyOps {v : PagedVector α P} (hP : 0 < P) (hwf : WF v) (ops : List (Op α)) :
    WF (applyOps v ops) := by
  induction ops generalizing v with
  | nil => exact hwf
  | cons op rest ih => exact ih (WF_applyOp hP hwf op)

theorem applyOps_concat (v : PagedVector α P) (ops : List (Op α)) (op : Op α) :
    applyOps v (ops ++ [op]) = applyOp (applyOps v ops) op := by
  simp [applyOps, List.foldl_append]

theorem materialize_slot_some (hP : 0 < P) {v : PagedVector α P} (hwf : WF v) {i : Nat}
    (hi : i < v.Size) :
    ∃ pg, (materializePage v i).PageToDataPtrs.getD (i / P) none = some pg
      ∧ pg.length = P := by
  have hl : i / P < v.PageToDataPtrs.length := slot_lt_length hP hwf hi
  cases hs : v.PageToDataPtrs.getD (i / P) none with
  | none => exact ⟨_, materializePage_of_none v i hs hl, by simp⟩
  | some pg =>
      rw [materializePage_of_some v i hs]
      exact ⟨pg, hs, WF_slot_length hwf hs⟩

theorem holdsAt_elemWrite (hP : 0 < P) {v : PagedVector α P} (hwf : WF v) {i : Nat}
    (hi : i < v.Size) (x : α) : holdsAt (elemWrite v i x) i x := by
  obtain ⟨pg1, hpg1, hlen1⟩ := materialize_slot_some hP hwf hi
  refine ⟨pg1.set (i % P) x, ?_, ?_⟩
  · simp only [elemWrite, hpg1]
    apply getD_set_self
    rw [materializePage_length]
    exact slot_lt_length hP hwf hi
  · rw [getD_set_self pg1 x default (by rw [hlen1]; exact Nat.mod_lt i hP)]

theorem mod_ne_of_ne_div_eq {i j : Nat} (hne : j ≠ i) (hq : j / P = i / P) :
    j % P ≠ i % P := by
  intro he
  apply hne
  have h1 := Nat.div_add_mod j P
  have h2 := Nat.div_add_mod i P
  have h3 : P * (j / P) = P * (i / P) := by rw [hq]
  omega

theorem holdsAt_preserved (hP : 0 < P) {v : PagedVector α P} {i : Nat} {x : α}
    (hwf : WF v) (hh : holdsAt v i x) (op : Op α) (hop : sparesIdx i P op) :
    holdsAt (applyOp v op) i x := by
  obtain ⟨pg, hpg, hval⟩ := hh
  cases op with
  | read j =>
      show holdsAt (materializePage v j) i x
      by_cases hq : j / P = i / P
      · rw [materializePage_of_some v j (by rw [hq]; exact hpg)]
        exact ⟨pg, hpg, hval⟩
      · exact ⟨pg, by rw [materializePage_slot_ne v j (fun h => hq h.symm)]; exact hpg, hval⟩
  | write j y =>
      show holdsAt (elemWrite v j y) i x
      have hne : j ≠ i := hop
      by_cases hq : j / P = i / P
      · have hpgj : v.PageToDataPtrs.getD (j / P) none = some pg := by rw [hq]; exact hpg
        have hmj : materializePage v j = v := materializePage_of_some v j hpgj
        refine ⟨pg.set (j % P) y, ?_, ?_⟩
        · simp only [elemWrite, hmj, hpgj]
          have hl : j / P < v.PageToDataPtrs.length := getD_some_lt_length hpgj
          rw [← hq]
          exact getD_set_self _ _ _ hl
        · rw [getD_set_ne pg y default (mod_ne_of_ne_div_eq hne hq), hval]

      · refine ⟨pg, ?_, hval⟩
        rw [elemWrite_slot_ne v j y (fun h => hq h.symm)]
        exact hpg
  | resizeOp n =>
      show holdsAt (resize v n) i x
      have hps : (i / P) * P < n := hop
      have h0 : n ≠ 0 := by omega
      rcases Nat.lt_or_ge n v.Size with hlt | hge
      · rw [resize_shrink_table v n hP hwf h0 hlt]
        refine ⟨pg, ?_, hval⟩
        show (v.PageToDataPtrs.take ((n - 1) / P + 1)).getD (i / P) none = some pg
        have hle : i / P ≤ (n - 1) / P := by
          have h1 : (i / P) * P ≤ n - 1 := by omega
          have h2 : (i / P) * P / P ≤ (n - 1) / P := Nat.div_le_div_right h1
          rw [Nat.mul_div_cancel _ hP] at h2
          exact h2
        rw [getD_take_lt _ _ (by omega)]
        exact hpg
      · rw [resize_grow v n h0 hge]
        split
        · exact ⟨pg, hpg, hval⟩
        · next hcap =>
            refine ⟨pg, ?_, hval⟩
            show (listResize v.PageToDataPtrs _ none).getD (i / P) none = some pg
            have hl : i / P < v.PageToDataPtrs.length := getD_some_lt_length hpg
            have hlen_lt := numPages_gt_length hP (Nat.lt_of_not_le hcap)
            rw [listResize, if_neg (by omega), getD_append_left _ _ _ hl]
            exact hpg
  | clearOp => exact absurd hop (by simp [sparesIdx])

theorem elemRead_of_holdsAt {v : PagedVector α P} {i : Nat} {x : α}
    (hh : holdsAt v i x) : elemRead v i = x := by
  obtain ⟨pg, hpg, hval⟩ := hh
  simp only [elemRead, materializePage_of_some v i hpg, hpg]
  exact hval

theorem holdsAt_applyOps (hP : 0 < P) {v : PagedVector α P} {i : Nat} {x : α}
    (hwf : WF v) (hh : holdsAt v i x) (ops : List (Op α))
    (hops : ∀ op ∈ ops, sparesIdx i P op) :
    WF (applyOps v ops) ∧ holdsAt (applyOps v ops) i x := by
  induction ops generalizing v with
  | nil => exact ⟨hwf, hh⟩
  | cons op rest ih =>
      exact ih (WF_applyOp hP hwf op)
        (holdsAt_preserved hP hwf hh op (hops op (List.mem_cons_self _ _)))
        fun o ho => hops o (List.mem_cons_of_mem _ ho)

/-! ## Never-written indices read as default -/

theorem resize_zero (v : PagedVector α P) : resize v 0 = (emptyPV : PagedVector α P) := by
  simp [resize, clear, emptyPV]

theorem getD_append_replicate_none {β : Type} (l : List (Option β)) (k q : Nat)
    (h : l.length ≤ q) :
    (l ++ List.replicate k (none : Option β)).getD q none = none := by
  rcases Nat.lt_or_ge q (l.length + k) with hq | hq
  · rw [List.getD_eq_getElem?_getD, List.getElem?_append_right h,
      List.getElem?_replicate_of_lt (by omega)]
    rfl
  · exact getD_of_ge_length _ _ (by simp; omega)

theorem defaultAt_emptyPV (i : Nat) : defaultAt (emptyPV : PagedVector α P) i :=
  Or.inl rfl

theorem defaultAt_preserved (hP : 0 < P) {v : PagedVector α P} {i : Nat}
    (hwf : WF v) (hd : defaultAt v i) (op : Op α) (hop : ¬ writesTo i op) :
    defaultAt (applyOp v op) i := by
  cases op with
  | read j =>
      show defaultAt (materializePage v j) i
      by_cases hq : j / P = i / P
      · cases hs : v.PageToDataPtrs.getD (j / P) none with
        | some pg => rw [materializePage_of_some v j hs]; exact hd
        | none =>
            rcases Nat.lt_or_ge (j / P) v.PageToDataPtrs.length with hl | hl
            · refine Or.inr ⟨List.replicate P default, ?_, getD_replicate_self _⟩
              rw [← hq]
              exact materializePage_of_none v j hs hl
            · refine Or.inl ?_
              simp only [materializePage, hs]
              rw [← hq]
              exact getD_of_ge_length _ _ (by simpa using hl)
      · rcases hd with h | ⟨pg, hpg, hv⟩
        · exact Or.inl (by rw [materializePage_slot_ne v j (fun h' => hq h'.symm)]; exact h)
        · exact Or.inr ⟨pg,
            by rw [materializePage_slot_ne v j (fun h' => hq h'.symm)]; exact hpg, hv⟩
  | write j y =>
      show defaultAt (elemWrite v j y) i
      have hne : j ≠ i := fun h => hop h
      by_cases hq : j / P = i / P
      · cases hs : v.PageToDataPtrs.getD (j / P) none with
        | none =>
            rcases Nat.lt_or_ge (j / P) v.PageToDataPtrs.length with hl | hl
            · have hm := materializePage_of_none v j hs hl
              refine Or.inr ⟨(List.replicate P (default : α)).set (j % P) y, ?_, ?_⟩
              · simp only [elemWrite, hm]
                rw [← hq]
                apply getD_set_self
                rw [materializePage_length]
                exact hl
              · rw [getD_set_ne _ _ _ (mod_ne_of_ne_div_eq hne hq),
                  getD_replicate_self]
            · have hm1 : (materializePage v j).PageToDataPtrs.getD (j / P) none = none := by
                simp only [materializePage, hs]
                exact getD_of_ge_length _ _ (by simpa using hl)
              refine Or.inl ?_
              simp only [elemWrite, hm1]
              rw [← hq]
              exact hm1
        | some pg =>
            have hm := materializePage_of_some v j hs
            rcases hd with h | ⟨pg', hpg', hv⟩
            · rw [← hq] at h
              exact absurd (hs.symm.trans h) (by simp)
            · rw [← hq] at hpg'
              have hpp : pg = pg' := Option.some.inj (hs.symm.trans hpg')
              subst hpp
              refine Or.inr ⟨pg.set (j % P) y, ?_, ?_⟩
              · simp only [elemWrite, hm, hs]
                rw [← hq]
                exact getD_set_self _ _ _ (getD_some_lt_length hs)
              · rw [getD_set_ne _ _ _ (mod_ne_of_ne_div_eq hne hq), hv]
      · rcases hd with h | ⟨pg, hpg, hv⟩
        · exact Or.inl (by rw [elemWrite_slot_ne v j y (fun h' => hq h'.symm)]; exact h)
        · exact Or.inr ⟨pg,
            by rw [elemWrite_slot_ne v j y (fun h' => hq h'.symm)]; exact hpg, hv⟩
  | resizeOp n =>
      show defaultAt (resize v n) i
      rcases Nat.eq_or_lt_of_le (Nat.zero_le n) with h0 | h0
      · rw [← h0, resize_zero]
        exact defaultAt_emptyPV i
      have h0' : n ≠ 0 := by omega
      rcases Nat.lt_or_ge n v.Size with hlt | hge
      · rw [resize_shrink_table v n hP hwf h0' hlt]
        rcases Nat.lt_or_ge (i / P) ((n - 1) / P + 1) with hip | hip
        · show defaultAt (⟨n, v.PageToDataPtrs.take ((n - 1) / P + 1)⟩ : PagedVector α P) i
          rcases hd with h | ⟨pg, hpg, hv⟩
          · exact Or.inl (by show (List.take _ _).getD _ none = none
                             rw [getD_take_lt _ _ hip]; exact h)
          · exact Or.inr ⟨pg, by show (List.take _ _).getD _ none = some pg
                                 rw [getD_take_lt _ _ hip]; exact hpg, hv⟩
        · refine Or.inl ?_
          show (List.take _ _).getD _ none = none
          exact getD_of_ge_length _ _ (by simp; omega)
      · rw [resize_grow v n h0' hge]
        split
        · exact hd
        · next hcap =>
            have hlen_lt := numPages_gt_length hP (Nat.lt_of_not_le hcap)
            show defaultAt (⟨n, listResize v.PageToDataPtrs _ none⟩ : PagedVector α P) i
            rcases Nat.lt_or_ge (i / P) v.PageToDataPtrs.length with hl | hl
            · rcases hd with h | ⟨pg, hpg, hv⟩
              · refine Or.inl ?_
                show (listResize _ _ none).getD _ none = none
                rw [listResize, if_neg (by omega), getD_append_left _ _ _ hl]
                exact h
              · refine Or.inr ⟨pg, ?_, hv⟩
                show (listResize _ _ none).getD _ none = some pg
                rw [listResize, if_neg (by omega), getD_append_left _ _ _ hl]
                exact hpg
            · refine Or.inl ?_
              show (listResize _ _ none).getD _ none = none
              rw [listResize, if_neg (by omega)]
              exact getD_append_replicate_none _ _ _ hl
  | clearOp => exact Or.inl rfl

theorem elemRead_of_defaultAt {v : PagedVector α P} {i : Nat}
    (hd : defaultAt v i) : elemRead v i = default := by
  rcases hd with h | ⟨pg, hpg, hv⟩
  · rcases Nat.lt_or_ge (i / P) v.PageToDataPtrs.length with hl | hl
    · simp only [elemRead, materializePage_of_none v i h hl]
      exact getD_replicate_self _
    · have h1 : (materializePage v i).PageToDataPtrs.getD (i / P) none = none := by
        simp only [materializePage, h]
        exact getD_of_ge_length _ _ (by simpa using hl)
      simp only [elemRead, h1]
  · simp only [elemRead, materializePage_of_some v i hpg, hpg]
    exact hv

theorem defaultAt_applyOps (hP : 0 < P) {v : PagedVector α P} {i : Nat}
    (hwf : WF v) (hd : defaultAt v i) (ops : List (Op α))
    (hops : ∀ op ∈ ops, ¬ writesTo i op) :
    WF (applyOps v ops) ∧ defaultAt (applyOps v ops) i := by
  induction ops generalizing v with
  | nil => exact ⟨hwf, hd⟩
  | cons op rest ih =>
      exact ih (WF_applyOp hP hwf op)
        (defaultAt_preserved hP hwf hd op (hops op (List.mem_cons_self _ _)))
        fun o ho => hops o (List.mem_cons_of_mem _ ho)

/-! ## Iterator lemmas -/

theorem range'_split (s m n : Nat) :
    List.range' s (m + n) = List.range' s m ++ List.range' (s + m) n := by
  have h := List.range'_append s m n 1
  simp only [Nat.one_mul] at h
  rw [Nat.add_comm n m] at h
  exact h.symm

theorem div_eq_of_in_page (hP : 0 < P) {e j : Nat} (he : e % P = 0) (hj1 : e ≤ j)
    (hj2 : j < e + P) : j / P = e / P := by
  have hd := Nat.div_add_mod e P
  apply Nat.div_eq_of_lt_le
  · rw [Nat.mul_comm]; omega
  · rw [Nat.add_mul, Nat.one_mul, Nat.mul_comm]; omega

theorem succ_div_eq_of_mod_ne {e : Nat} (h : (e + 1) % P ≠ 0) : (e + 1) / P = e / P := by
  rw [Nat.succ_div]
  have hnd : ¬ P ∣ e + 1 := fun hd => h (Nat.mod_eq_zero_of_dvd hd)
  simp [hnd]

theorem skipUnmat_ge (v : PagedVector α P) (fuel e : Nat) : e ≤ skipUnmat v fuel e := by
  induction fuel generalizing e with
  | zero => exact Nat.le_refl e
  | succ fuel ih =>
      simp only [skipUnmat]
      split
      · exact Nat.le_trans (Nat.le_add_right e P) (ih (e + P))
      · exact Nat.le_refl e

theorem skipUnmat_stops (hP : 0 < P) (v : PagedVector α P) (fuel e : Nat)
    (hfuel : v.Size - e < fuel) :
    v.Size ≤ skipUnmat v fuel e ∨
      (skipUnmat v fuel e < v.Size ∧
        (v.PageToDataPtrs.getD (skipUnmat v fuel e / P) none).isSome) := by
  induction fuel generalizing e with
  | zero => omega
  | succ fuel ih =>
      simp only [skipUnmat]
      split
      · next hcond => exact ih (e + P) (by omega)
      · next hcond =>
          rcases Nat.lt_or_ge e v.Size with h | h
          · right
            refine ⟨h, ?_⟩
            by_contra hb
            exact hcond ⟨h, hb⟩
          · exact Or.inl h

theorem skipUnmat_skipped (hP : 0 < P) (v : PagedVector α P) (fuel e : Nat)
    (he : e % P = 0) {j : Nat} (hj1 : e ≤ j) (hj2 : j < skipUnmat v fuel e) :
    ¬ (v.PageToDataPtrs.getD (j / P) none).isSome := by
  induction fuel generalizing e with
  | zero =>
      simp only [skipUnmat] at hj2
      omega
  | succ fuel ih =>
      simp only [skipUnmat] at hj2
      revert hj2
      split
      · next hcond =>
          intro hj2
          rcases Nat.lt_or_ge j (e + P) with hcase | hcase
          · rw [div_eq_of_in_page hP he hj1 hcase]
            exact hcond.2
          · exact ih (e + P) (by rw [Nat.add_mod_right]; exact he) hcase hj2
      · next hcond =>
          intro hj2
          omega

theorem findFirstMat_le (v : PagedVector α P) (fuel e : Nat) :
    findFirstMat v fuel e ≤ v.Size := by
  induction fuel generalizing e with
  | zero => exact Nat.le_refl _
  | succ fuel ih =>
      simp only [findFirstMat]
      split
      · split
        · next h _ => exact Nat.le_of_lt h
        · exact ih (e + P)
      · exact Nat.le_refl _

theorem findFirstMat_stops (v : PagedVector α P) (fuel e : Nat) :
    findFirstMat v fuel e = v.Size ∨
      (findFirstMat v fuel e < v.Size ∧
        (v.PageToDataPtrs.getD (findFirstMat v fuel e / P) none).isSome) := by
  induction fuel generalizing e with
  | zero => exact Or.inl rfl
  | succ fuel ih =>
      simp only [findFirstMat]
      split
      · split
        · next h hm => exact Or.inr ⟨h, hm⟩
        · exact ih (e + P)
      · exact Or.inl rfl

theorem findFirstMat_skipped (hP : 0 < P) (v : PagedVector α P) (fuel e : Nat)
    (he : e % P = 0) (hfuel : v.Size - e < fuel) {j : Nat} (hj1 : e ≤ j)
    (hj2 : j < findFirstMat v fuel e) (hj3 : j < v.Size) :
    ¬ (v.PageToDataPtrs.getD (j / P) none).isSome := by
  induction fuel generalizing e with
  | zero => omega
  | succ fuel ih =>
      simp only [findFirstMat] at hj2
      revert hj2
      split
      · split
        · next h hm => intro hj2; omega
        · next h hm =>
            intro hj2
            rcases Nat.lt_or_ge j (e + P) with hcase | hcase
            · rw [div_eq_of_in_page hP he hj1 hcase]
              simpa using hm
            · exact ih (e + P) (by rw [Nat.add_mod_right]; exact he) (by omega) hcase hj2
      · next h => intro hj2; omega

theorem iterNext_gt (v : PagedVector α P) (e : Nat) (h : e < v.Size) : e < iterNext v e := by
  simp only [iterNext]
  split
  · have := skipUnmat_ge v (v.Size + 1) (e + 1)
    split <;> omega
  · omega

theorem iterNext_le (v : PagedVector α P) (e : Nat) (h : e < v.Size) :
    iterNext v e ≤ v.Size := by
  simp only [iterNext]
  split
  · split <;> omega
  · omega

theorem iterNext_stops (hP : 0 < P) (v : PagedVector α P) (e : Nat) (h : e < v.Size)
    (hm : (v.PageToDataPtrs.getD (e / P) none).isSome) : iterStops v (iterNext v e) := by
  simp only [iterNext]
  split
  · next hb =>
      have hge := skipUnmat_ge v (v.Size + 1) (e + 1)
      have hstops := skipUnmat_stops hP v (v.Size + 1) (e + 1) (by omega)
      split
      · next hgt => exact Or.inl rfl
      · next hgt =>
          rcases hstops with h1 | h1
          · exact Or.inl (by omega)
          · exact Or.inr h1
  · next hb =>
      rcases Nat.lt_or_ge (e + 1) v.Size with h1 | h1
      · refine Or.inr ⟨h1, ?_⟩
        rw [succ_div_eq_of_mod_ne hb]
        exact hm
      · exact Or.inl (by omega)

theorem iterNext_skipped (hP : 0 < P) (v : PagedVector α P) (e : Nat) {j : Nat}
    (hj1 : e < j) (hj2 : j < iterNext v e) :
    ¬ (v.PageToDataPtrs.getD (j / P) none).isSome := by
  revert hj2
  simp only [iterNext]
  split
  · next hb =>
      split
      · next hgt =>
          intro hj2
          exact skipUnmat_skipped hP v (v.Size + 1) (e + 1) hb (by omega) (by omega)
      · next hgt =>
          intro hj2
          exact skipUnmat_skipped hP v (v.Size + 1) (e + 1) hb (by omega) hj2
  · intro hj2; omega

theorem matIndexCountFrom_size (v : PagedVector α P) : matIndexCountFrom v v.Size = 0 := by
  simp [matIndexCountFrom]

theorem matCountFrom_step (hP : 0 < P) (v : PagedVector α P) (e : Nat) (hlt : e < v.Size)
    (hm : (v.PageToDataPtrs.getD (e / P) none).isSome) :
    matIndexCountFrom v e = matIndexCountFrom v (iterNext v e) + 1 := by
  have hgt := iterNext_gt v e hlt
  have hle := iterNext_le v e hlt
  set nx := iterNext v e with hnx
  have hsz : v.Size - e = 1 + ((nx - (e + 1)) + (v.Size - nx)) := by omega
  rw [matIndexCountFrom, hsz, range'_split e 1 _, List.countP_append,
    range'_split (e + 1) (nx - (e + 1)) (v.Size - nx), List.countP_append]
  have hmid : (List.range' (e + 1) (nx - (e + 1))).countP
      (fun i => (v.PageToDataPtrs.getD (i / P) none).isSome) = 0 := by
    apply List.countP_eq_zero.mpr
    intro a ha
    have hb := List.mem_range'_1.mp ha
    simpa using iterNext_skipped hP v e (by omega) (by omega)
  have haddr : e + 1 + (nx - (e + 1)) = nx := by omega
  rw [hmid, haddr]
  have hgen : ∀ p : Nat → Bool, p e = true → (List.range' e 1).countP p = 1 := by
    intro p hp
    rw [List.range'_one]
    simp [List.countP_cons, hp]
  rw [hgen _ hm, matIndexCountFrom]
  omega

theorem countFrom_eq (hP : 0 < P) (v : PagedVector α P) (fuel e : Nat)
    (hstop : iterStops v e) (hfuel : v.Size - e < fuel) :
    countFrom v fuel e = matIndexCountFrom v e := by
  induction fuel generalizing e with
  | zero => omega
  | succ fuel ih =>
      simp only [countFrom]
      split
      · next hne =>
          rcases hstop with h | ⟨hlt, hm⟩
          · exact absurd h hne
          have hgt := iterNext_gt v e hlt
          have hle := iterNext_le v e hlt
          rw [ih (iterNext v e) (iterNext_stops hP v e hlt hm) (by omega),
            matCountFrom_step hP v e hlt hm]
      · next hne =>
          rw [not_ne_iff.mp hne, matIndexCountFrom_size]

theorem materialisedBeginIdx_le (v : PagedVector α P) : materialisedBeginIdx v ≤ v.Size :=
  findFirstMat_le v (v.Size + 1) 0

theorem materialisedBeginIdx_stops (v : PagedVector α P) :
    iterStops v (materialisedBeginIdx v) :=
  findFirstMat_stops v (v.Size + 1) 0

theorem materialisedDistance_eq_matIndexCount (hP : 0 < P) (v : PagedVector α P) :
    materialisedDistance v = matIndexCount v := by
  rw [materialisedDistance, countFrom_eq hP v _ _ (materialisedBeginIdx_stops v)
    (by have := materialisedBeginIdx_le v; omega)]
  have hb := materialisedBeginIdx_le v
  rw [matIndexCount, List.range_eq_range']
  rw [show List.range' 0 v.Size = List.range' 0 (materialisedBeginIdx v)
      ++ List.range' (0 + materialisedBeginIdx v) (v.Size - materialisedBeginIdx v) from by
    rw [← range'_split]
    congr 1
    omega]
  rw [List.countP_append]
  have hzero : (List.range' 0 (materialisedBeginIdx v)).countP
      (fun i => (v.PageToDataPtrs.getD (i / P) none).isSome) = 0 := by
    apply List.countP_eq_zero.mpr
    intro a ha
    have hb2 := List.mem_range'_1.mp ha
    have hbd : materialisedBeginIdx v = findFirstMat v (v.Size + 1) 0 := rfl
    simpa using findFirstMat_skipped hP v (v.Size + 1) 0 (by simp) (by omega)
      (Nat.zero_le a) (by omega) (by omega)
  rw [hzero, matIndexCountFrom]
  simp

/-! ## Reachable states -/

theorem reach_WF (hP : 0 < P) {v : PagedVector α P} (h : Reach v) : WF v := by
  induction h with
  | fresh => exact WF_emptyPV
  | step op _ ih => exact WF_applyOp hP ih op

theorem reach_table_nil {v : PagedVector α P} (h : Reach v) :
    v.Size = 0 → v.PageToDataPtrs = [] := by
  induction h with
  | fresh => intro _; rfl
  | @step v op _ ih =>
      intro h0
      cases op with
      | read i =>
          have hs : v.Size = 0 := by rw [← materializePage_Size v i]; exact h0
          have hlen : (materializePage v i).PageToDataPtrs.length = 0 := by
            rw [materializePage_length, ih hs]
            rfl
          exact List.eq_nil_of_length_eq_zero hlen
      | write i x =>
          have hs : v.Size = 0 := by rw [← elemWrite_Size v i x]; exact h0
          have hlen : (elemWrite v i x).PageToDataPtrs.length = 0 := by
            rw [elemWrite_length, ih hs]
            rfl
          exact List.eq_nil_of_length_eq_zero hlen
      | resizeOp n =>
          have h0' : (resize v n).Size = 0 := h0
          have hn : n = 0 := by
            have := resize_Size v n
            omega
          show (resize v n).PageToDataPtrs = []
          rw [hn, resize_zero]
          rfl
      | clearOp => rfl

theorem resize_self (hP : 0 < P) {v : PagedVector α P} (hv : Reach v) :
    resize v v.Size = v := by
  rcases eq_or_ne v.Size 0 with h0 | h0
  · have ht := reach_table_nil hv h0
    rw [h0, resize_zero]
    obtain ⟨s, t⟩ := v
    simp only at h0 ht
    rw [emptyPV, h0, ht]
  · have hwf := reach_WF hP hv
    simp only [resize, if_neg h0, Nat.lt_irrefl, if_false]
    split
    · rfl
    · next hcap => exact absurd hwf.1 hcap

/-! ## Slot-level facts about resize -/

theorem shrinkPages_fst_getD_none (table : List (Option (List α))) (idxs : List Nat)
    {I : Nat} (h : table.getD I none = none) :
    (shrinkPages table idxs).1.getD I none = none := by
  induction idxs generalizing table with
  | nil => exact h
  | cons J rest ih =>
      simp only [shrinkPages]
      split
      · exact ih table h
      · simp only
        apply ih
        by_cases hIJ : I = J
        · subst hIJ
          rcases Nat.lt_or_ge I table.length with hl | hl
          · exact getD_set_self _ _ _ hl
          · exact getD_of_ge_length _ _ (by simpa using hl)
        · rw [getD_set_ne _ _ _ (fun h' => hIJ h'.symm)]
          exact h

theorem listResize_getD_none (l : List (Option (List α))) (k : Nat)
    {I : Nat} (h : l.getD I none = none) :
    (listResize l k none).getD I none = none := by
  rw [listResize]
  split
  · next hle =>
      rcases Nat.lt_or_ge I k with hI | hI
      · rw [getD_take_lt _ _ hI]
        exact h
      · exact getD_of_ge_length _ _ (by simp; omega)
  · rcases Nat.lt_or_ge I l.length with hI | hI
    · rw [getD_append_left _ _ _ hI]
      exact h
    · exact getD_append_replicate_none _ _ _ hI

theorem resize_slot_none (hP : 0 < P) (v : PagedVector α P) (m : Nat) {I : Nat}
    (h : v.PageToDataPtrs.getD I none = none) :
    (resize v m).PageToDataPtrs.getD I none = none := by
  rcases eq_or_ne m 0 with h0 | h0
  · rw [h0, resize_zero]; rfl
  rcases Nat.lt_or_ge m v.Size with hlt | hge
  · rw [resize_shrink_eq v m hP h0 hlt]
    exact listResize_getD_none _ _
      (shrinkPages_fst_getD_none v.PageToDataPtrs
        (shrinkRange v.PageToDataPtrs.length ((m - 1) / P + 1)) h)
  · rw [resize_grow v m h0 hge]
    split
    · exact h
    · exact listResize_getD_none _ _ h

/-! ## The claims -/

/-- C1: after assigning `x` at a valid index `i` through `operator[]`, any
later read of `operator[](i)` returns `x`, provided every intervening
operation spares `i`: it is not an assignment to `i`, and any intervening
`resize` target stays strictly above the start of the page of `i` (the
shrink semantics destroy the page of `i` exactly when the target is at or
below its page start). -/
theorem C1_write_then_read (v : PagedVector α P) (i : Nat) (x : α) (ops : List (Op α))
    (hP : 0 < P) (hwf : WF v) (hi : i < v.Size)
    (hops : ∀ op ∈ ops, sparesIdx i P op) :
    elemRead (applyOps (elemWrite v i x) ops) i = x :=
  elemRead_of_holdsAt
    (holdsAt_applyOps hP (WF_elemWrite hwf i x) (holdsAt_elemWrite hP hwf hi x) ops hops).2

theorem C1_witness :
    (0 : Nat) < 10 ∧ WF (resize (emptyPV : V10) 25) ∧ 12 < (resize (emptyPV : V10) 25).Size ∧
    (∀ op ∈ ([Op.write 13 1, Op.resizeOp 15, Op.resizeOp 30, Op.read 3] : List (Op Nat)),
      sparesIdx 12 10 op) ∧
    elemRead (applyOps (elemWrite (resize (emptyPV : V10) 25) 12 7)
      [Op.write 13 1, Op.resizeOp 15, Op.resizeOp 30, Op.read 3]) 12 = 7 :=
  ⟨by decide, by decide, by decide, by decide,
    C1_write_then_read (resize (emptyPV : V10) 25) 12 7
      [Op.write 13 1, Op.resizeOp 15, Op.resizeOp 30, Op.read 3]
      (by decide) (by decide) (by decide) (by decide)⟩

/-- C3 counterexample: the claim quantifies over positions reachable from
`materialised_begin()` or `materialised_end()` by applying `operator++` any
number of times. With page size 10 and a `resize(5)` container (no page
materialized), the end position 5 steps to index 6, which is neither
`size()` nor inside a materialized page. -/
theorem C3_counterexample : IterReach vHalfPage 6 ∧ ¬ iterStops vHalfPage 6 := by
  constructor
  · have h5 : vHalfPage.Size = 5 := by decide
    have hend : IterReach vHalfPage 5 := h5 ▸ IterReach.endPos
    have h : iterNext vHalfPage 5 = 6 := by decide
    exact h ▸ IterReach.next hend
  · decide

/-- C3 amended: every iterator position reachable from
`materialised_begin()` or `materialised_end()` by applying `operator++`
only at non-end positions (indices different from `size()`, the iterator
usage contract) has an index that is either exactly `size()` or lies inside
a materialized page. -/
theorem C3_amended (hP : 0 < P) (v : PagedVector α P) (e : Nat)
    (h : IterReachStop v e) : iterStops v e := by
  induction h with
  | beginPos => exact materialisedBeginIdx_stops v
  | endPos => exact Or.inl rfl
  | next _ hne ih =>
      rcases ih with h1 | ⟨hlt, hm⟩
      · exact absurd h1 hne
      · exact iterNext_stops hP v _ hlt hm

theorem C3_amended_witness :
    (0 : Nat) < 10 ∧
    iterStops vSample (iterNext vSample (materialisedBeginIdx vSample)) :=
  ⟨by decide, C3_amended (by decide) vSample _
    (IterReachStop.next IterReachStop.beginPos (by decide))⟩

/-- C4: the number of elements visited by iterating from
`materialised_begin()` to `materialised_end()` equals the number of indices
`i < size()` whose page is materialized (whole materialized in-range pages,
truncated at `size()` for a partly filled final page). -/
theorem C4_distance (v : PagedVector α P) (hP : 0 < P) :
    materialisedDistance v = matIndexCount v :=
  materialisedDistance_eq_matIndexCount hP v

theorem C4_witness :
    (0 : Nat) < 10 ∧ materialisedDistance vScenario35w = matIndexCount vScenario35w :=
  ⟨by decide, C4_distance vScenario35w (by decide)⟩

/-- C5: with page size 10, after `resize(30)` and writes to 0..9 and 20..29
(10..19 untouched) the materialized count — the number of constructed
elements, i.e. materialized pages times the page size — is 20, and an
untouched index reads the default value; after `resize(35)` it is still 20;
after writing 30..34 it grows by exactly 10 (the full new page) and
`capacity() == 40`. -/
theorem C5_scenario :
    size vScenario30 = 30 ∧
    matElemCount vScenario30 = 20 ∧
    elemRead vScenario30 15 = 0 ∧
    size vScenario35 = 35 ∧
    matElemCount vScenario35 = 20 ∧
    matElemCount vScenario35w = matElemCount vScenario35 + 10 ∧
    capacity vScenario35w = 40 := by
  decide

/-- C7: reading any valid index that was never assigned through
`operator[]` returns the default-constructed value of the element type,
because materializing a page default-constructs all of its slots. -/
theorem C7_default_read (ops : List (Op α)) (i : Nat) (hP : 0 < P)
    (hops : ∀ op ∈ ops, ¬ writesTo i op)
    (_hi : i < (applyOps (emptyPV : PagedVector α P) ops).Size) :
    elemRead (applyOps (emptyPV : PagedVector α P) ops) i = default :=
  elemRead_of_defaultAt (defaultAt_applyOps hP WF_emptyPV (defaultAt_emptyPV i) ops hops).2

theorem C7_witness :
    (0 : Nat) < 10 ∧
    (∀ op ∈ ([Op.resizeOp 30, Op.write 0 5, Op.write 21 3] : List (Op Nat)),
      ¬ writesTo 15 op) ∧
    15 < (applyOps (emptyPV : V10) [Op.resizeOp 30, Op.write 0 5, Op.write 21 3]).Size ∧
    elemRead (applyOps (emptyPV : V10) [Op.resizeOp 30, Op.write 0 5, Op.write 21 3]) 15 = 0 :=
  ⟨by decide, by decide, by decide,
    C7_default_read [Op.resizeOp 30, Op.write 0 5, Op.write 21 3] 15
      (by decide) (by decide) (by decide)⟩

/-- C9: `operator[](i)` never changes `size()`, changes no page-table slot
other than the one of the page of `i`, changes that slot only when it held
the sentinel (materializing a fresh default-constructed page), and leaves
the container entirely unchanged when the page of `i` — or, equally, of any
index `j` in the same page — is already materialized. -/
theorem C9_access_frame (v : PagedVector α P) (i : Nat) (hP : 0 < P) (hwf : WF v)
    (hi : i < v.Size) :
    (materializePage v i).Size = v.Size ∧
    (∀ q, q ≠ i / P →
      (materializePage v i).PageToDataPtrs.getD q none = v.PageToDataPtrs.getD q none) ∧
    (∀ pg, v.PageToDataPtrs.getD (i / P) none = some pg → materializePage v i = v) ∧
    (v.PageToDataPtrs.getD (i / P) none = none →
      (materializePage v i).PageToDataPtrs.getD (i / P) none
        = some (List.replicate P (default : α))) ∧
    (∀ j, j / P = i / P → ∀ pg, v.PageToDataPtrs.getD (j / P) none = some pg →
      materializePage v j = v) :=
  ⟨materializePage_Size v i, fun _ hq => materializePage_slot_ne v i hq,
    fun _ hpg => materializePage_of_some v i hpg,
    fun hnone => materializePage_of_none v i hnone (slot_lt_length hP hwf hi),
    fun j _ _ hpg => materializePage_of_some v j hpg⟩

theorem C9_witness :
    (0 : Nat) < 10 ∧ WF vSample ∧ 7 < vSample.Size ∧
    ((materializePage vSample 7).Size = vSample.Size ∧
     (∀ q, q ≠ 7 / 10 →
       (materializePage vSample 7).PageToDataPtrs.getD q none
         = vSample.PageToDataPtrs.getD q none) ∧
     (∀ pg, vSample.PageToDataPtrs.getD (7 / 10) none = some pg →
       materializePage vSample 7 = vSample) ∧
     (vSample.PageToDataPtrs.getD (7 / 10) none = none →
       (materializePage vSample 7).PageToDataPtrs.getD (7 / 10) none
         = some (List.replicate 10 (default : Nat))) ∧
     (∀ j, j / 10 = 7 / 10 → ∀ pg, vSample.PageToDataPtrs.getD (j / 10) none = some pg →
       materializePage vSample j = vSample)) :=
  ⟨by decide, by decide, by decide,
    C9_access_frame vSample 7 (by decide) (by decide) (by decide)⟩

/-- C10: on every reachable state, `resize(size())` is a complete no-op:
the state (size, page table, and hence all materialized elements) is
unchanged and no page is destructed or deallocated; this includes
`resize(0)` on an already-empty container, which routes through `clear()`. -/
theorem C10_resize_noop (hP : 0 < P) (v : PagedVector α P) (hv : Reach v) :
    resize v v.Size = v ∧ resizeDestroyed v v.Size = [] := by
  refine ⟨resize_self hP hv, ?_⟩
  rcases eq_or_ne v.Size 0 with h0 | h0
  · have ht := reach_table_nil hv h0
    rw [resizeDestroyed, if_pos h0, ht]
    rfl
  · rw [resizeDestroyed, if_neg h0, if_neg (Nat.lt_irrefl _)]

theorem C10_witness :
    (0 : Nat) < 10 ∧
    (resize vSample vSample.Size = vSample ∧ resizeDestroyed vSample vSample.Size = []) :=
  ⟨by decide, C10_resize_noop (by decide) vSample
    (Reach.step (Op.write 3 5) (Reach.step (Op.resizeOp 12) Reach.fresh))⟩

/-- C2: with `0 < NewSize < Size` and `L = (NewSize-1)/PageSize`, `resize`
destructs and deallocates exactly the materialized pages in slots strictly
beyond `L` (in loop order), resets those slots to the sentinel, truncates
the page table to `L + 1` slots, and sets the size to `NewSize`; every slot
up to and including `L` — in particular the last retained page, even when
`NewSize` falls strictly inside it — is unchanged, so its constructed
elements survive; a slot is beyond `L` exactly when its page start is at or
beyond `NewSize`, and such a destroyed page stays unmaterialized across any
later resize. -/
theorem C2_shrink (v : PagedVector α P) (n : Nat) (hP : 0 < P) (hwf : WF v)
    (h0 : 0 < n) (hlt : n < v.Size) :
    resizeDestroyed v n
        = (shrinkRange v.PageToDataPtrs.length ((n - 1) / P + 1)).filter
            (fun I => (v.PageToDataPtrs.getD I none).isSome) ∧
    (∀ I, (n - 1) / P < I →
      (shrinkPages v.PageToDataPtrs
        (shrinkRange v.PageToDataPtrs.length ((n - 1) / P + 1))).1.getD I none = none) ∧
    (resize v n).PageToDataPtrs = v.PageToDataPtrs.take ((n - 1) / P + 1) ∧
    (resize v n).PageToDataPtrs.length = (n - 1) / P + 1 ∧
    (resize v n).Size = n ∧
    (∀ I, I ≤ (n - 1) / P →
      (resize v n).PageToDataPtrs.getD I none = v.PageToDataPtrs.getD I none) ∧
    (∀ I, ((n - 1) / P < I ↔ n ≤ I * P)) ∧
    (∀ I, (n - 1) / P < I → ∀ m,
      (resize (resize v n) m).PageToDataPtrs.getD I none = none) := by
  have hn0 : n ≠ 0 := by omega
  have hL : (n - 1) / P + 1 ≤ v.PageToDataPtrs.length := by
    have h1 : n - 1 < v.Size := by omega
    have h2 : n - 1 < v.PageToDataPtrs.length * P := Nat.lt_of_lt_of_le h1 hwf.1
    have := (Nat.div_lt_iff_lt_mul hP).mpr h2
    omega
  have htab := resize_shrink_table v n hP hwf hn0 hlt
  have hnd : (shrinkRange v.PageToDataPtrs.length ((n - 1) / P + 1)).Nodup :=
    List.nodup_range' _ _ 1 Nat.one_pos
  refine ⟨?_, ?_, ?_, ?_, resize_Size v n, ?_, ?_, ?_⟩
  · rw [resizeDestroyed, if_neg hn0, if_pos hlt]
    exact shrinkPages_snd _ _ hnd
  · intro I hI
    rcases Nat.lt_or_ge I v.PageToDataPtrs.length with hIl | hIl
    · exact shrinkPages_fst_getD_mem _ _ hnd
        (by rw [shrinkRange, List.mem_range'_1]; omega)
    · exact getD_of_ge_length _ _ (by rw [shrinkPages_fst_length]; exact hIl)
  · rw [htab]
  · rw [htab]
    simp [List.length_take_of_le hL]
  · intro I hI
    rw [htab]
    show (List.take _ _).getD I none = _
    exact getD_take_lt _ _ (by omega)
  · intro I
    constructor
    · intro h
      have := (Nat.div_lt_iff_lt_mul hP).mp h
      omega
    · intro h
      exact (Nat.div_lt_iff_lt_mul hP).mpr (by omega)
  · intro I hI m
    apply resize_slot_none hP
    rw [htab]
    show (List.take _ _).getD I none = none
    apply getD_of_ge_length
    have := List.length_take ((n - 1) / P + 1) v.PageToDataPtrs
    omega

theorem C2_witness :
    (0 : Nat) < 10 ∧ WF vFull40 ∧ 0 < 20 ∧ 20 < vFull40.Size ∧
    (resizeDestroyed vFull40 20
        = (shrinkRange vFull40.PageToDataPtrs.length ((20 - 1) / 10 + 1)).filter
            (fun I => (vFull40.PageToDataPtrs.getD I none).isSome) ∧
     (∀ I, (20 - 1) / 10 < I →
       (shrinkPages vFull40.PageToDataPtrs
         (shrinkRange vFull40.PageToDataPtrs.length ((20 - 1) / 10 + 1))).1.getD I none
         = none) ∧
     (resize vFull40 20).PageToDataPtrs = vFull40.PageToDataPtrs.take ((20 - 1) / 10 + 1) ∧
     (resize vFull40 20).PageToDataPtrs.length = (20 - 1) / 10 + 1 ∧
     (resize vFull40 20).Size = 20 ∧
     (∀ I, I ≤ (20 - 1) / 10 →
       (resize vFull40 20).PageToDataPtrs.getD I none
         = vFull40.PageToDataPtrs.getD I none) ∧
     (∀ I, ((20 - 1) / 10 < I ↔ 20 ≤ I * 10)) ∧
     (∀ I, (20 - 1) / 10 < I → ∀ m,
       (resize (resize vFull40 20) m).PageToDataPtrs.getD I none = none)) :=
  ⟨by decide, by decide, by decide, by decide,
    C2_shrink vFull40 20 (by decide) (by decide) (by decide) (by decide)⟩

/-- C6: for every sequence of `resize` calls with non-decreasing targets
applied to a fresh container, after each call `size()` equals the most
recent target, and `capacity()` equals the page-table length times the page
size, is a multiple of the page size, and is at least `size()`; moreover
`capacity() >= size()` is preserved by every operation from every
well-formed state. -/
theorem C6_capacity_inv (hP : 0 < P) (ts : List Nat) (_hmono : ts.Chain' (· ≤ ·)) :
    (∀ l1 t l2, ts = l1 ++ t :: l2 →
      ∀ w : PagedVector α P, w = applyOps emptyPV ((l1 ++ [t]).map Op.resizeOp) →
        size w = t ∧ capacity w = w.PageToDataPtrs.length * P ∧
        P ∣ capacity w ∧ size w ≤ capacity w) ∧
    (∀ (w : PagedVector α P) (op : Op α), WF w →
      size (applyOp w op) ≤ capacity (applyOp w op)) := by
  constructor
  · intro l1 t l2 _hts w hw
    subst hw
    have hwf : WF (applyOps (emptyPV : PagedVector α P) ((l1 ++ [t]).map Op.resizeOp)) :=
      WF_applyOps hP WF_emptyPV _
    refine ⟨?_, rfl, dvd_mul_left P _, hwf.1⟩
    rw [show (l1 ++ [t]).map Op.resizeOp
        = l1.map Op.resizeOp ++ [Op.resizeOp t] from by simp, applyOps_concat]
    show (resize _ t).Size = t
    exact resize_Size _ t
  · intro w op hwf
    exact (WF_applyOp hP hwf op).1

theorem C6_witness :
    (0 : Nat) < 10 ∧ List.Chain' (· ≤ ·) ([2, 10, 10, 30] : List Nat) ∧
    (size (applyOps (emptyPV : V10) (([2, 10] ++ [10]).map Op.resizeOp)) = 10 ∧
     size (applyOps (emptyPV : V10) (([2, 10] ++ [10]).map Op.resizeOp))
       ≤ capacity (applyOps (emptyPV : V10) (([2, 10] ++ [10]).map Op.resizeOp))) := by
  refine ⟨by decide, by simp, ?_⟩
  have h := (C6_capacity_inv (α := Nat) (P := 10) (by decide) [2, 10, 10, 30] (by simp)).1
    [2, 10] 10 [30] rfl _ rfl
  exact ⟨h.1, h.2.2.2⟩

theorem listResize_nil (k : Nat) :
    listResize ([] : List (Option (List α))) k none = List.replicate k none := by
  rw [listResize]
  rcases Nat.eq_zero_or_pos k with h | h
  · subst h
    rw [if_pos (Nat.zero_le _)]
    rfl
  · rw [if_neg (by simpa using Nat.not_le.mpr h)]
    simp

theorem resize_emptyPV_table (hP : 0 < P) (n : Nat) :
    (resize (emptyPV : PagedVector α P) n).PageToDataPtrs
      = List.replicate (n / P + (if n % P ≠ 0 then 1 else 0)) none := by
  rcases eq_or_ne n 0 with h0 | h0
  · subst h0
    rw [resize_zero]
    simp [emptyPV]
  · rw [resize_grow _ n h0 (Nat.zero_le n)]
    split
    · next hcap =>
        exfalso
        have hc0 : capacity (emptyPV : PagedVector α P) = 0 := by simp [capacity, emptyPV]
        omega
    · exact listResize_nil _

/-- C8: `clear()` followed by `resize(n)` is observationally identical to
`resize(n)` on a freshly constructed container: same state, `size() == n`,
`capacity()` is `ceil(n / PageSize) * PageSize`, every page-table slot is
the sentinel, and the materialized range is empty. -/
theorem C8_clear_resize (v : PagedVector α P) (n : Nat) (hP : 0 < P) :
    resize (clear v) n = resize (emptyPV : PagedVector α P) n ∧
    size (resize (clear v) n) = n ∧
    capacity (resize (clear v) n) = ((n + P - 1) / P) * P ∧
    (∀ s ∈ (resize (clear v) n).PageToDataPtrs, s = none) ∧
    materialisedDistance (resize (clear v) n) = 0 := by
  have htab := resize_emptyPV_table (α := α) hP n
  have heq : resize (clear v) n = resize (emptyPV : PagedVector α P) n := rfl
  refine ⟨rfl, resize_Size _ n, ?_, ?_, ?_⟩
  · rw [heq, capacity, htab, List.length_replicate, numPages_eq_ceil hP n]
  · intro s hs
    rw [heq, htab] at hs
    exact List.eq_of_mem_replicate hs
  · rw [heq, materialisedDistance_eq_matIndexCount hP, matIndexCount]
    apply List.countP_eq_zero.mpr
    intro a _
    rw [htab, getD_replicate_self]
    simp

theorem C8_witness :
    (0 : Nat) < 10 ∧
    (resize (clear vFull40) 17 = resize (emptyPV : V10) 17 ∧
     size (resize (clear vFull40) 17) = 17 ∧
     capacity (resize (clear vFull40) 17) = ((17 + 10 - 1) / 10) * 10 ∧
     (∀ s ∈ (resize (clear vFull40) 17).PageToDataPtrs, s = none) ∧
     materialisedDistance (resize (clear vFull40) 17) = 0) :=
  ⟨by decide, C8_clear_resize vFull40 17 (by decide)⟩

end PV
